import Mathlib

/-!
Shallow embedding of the URL boundary scanner of `src/url.rs` (the
`UrlScanner` type with its `scan`, `find_start` and `find_end` functions).

Text is modelled as `List Char`; all offsets are UTF-8 byte offsets, computed
with `Char.utf8Size`, exactly as Rust's `str::char_indices` produces them.
Rust's panicking byte slicing `s[i..]` / `s[..i]` is modelled by
`byteDropOpt` / `byteTakeOpt`, which return `none` when the offset is not on a
character boundary (or out of bounds).  `scan` returns
`Option (Option (Nat × Nat))`: the outer `none` models a panic, the inner
`none` models the scanner's ordinary no-match result.
-/

/-- Total UTF-8 byte length of a character list (Rust `str::len`). -/
def byteLen : List Char → Nat
  | [] => 0
  | c :: rest => c.utf8Size + byteLen rest

/-- Byte-indexed character list starting at byte offset `base`
(Rust `str::char_indices`, shifted by `base`). -/
def charIndicesFrom (base : Nat) : List Char → List (Nat × Char)
  | [] => []
  | c :: rest => (base, c) :: charIndicesFrom (base + c.utf8Size) rest

/-- Byte-indexed character list (Rust `str::char_indices`). -/
def charIndices (s : List Char) : List (Nat × Char) :=
  charIndicesFrom 0 s

/-- Drop the first `n` bytes of a character list (Rust `&s[n..]`); `none` when
`n` is not on a character boundary or exceeds the byte length (Rust panics). -/
def byteDropOpt : List Char → Nat → Option (List Char)
  | s, 0 => some s
  | [], _ + 1 => none
  | c :: rest, n + 1 =>
    if c.utf8Size ≤ n + 1 then byteDropOpt rest (n + 1 - c.utf8Size) else none

/-- Take the first `n` bytes of a character list (Rust `&s[..n]`); `none` when
`n` is not on a character boundary or exceeds the byte length (Rust panics). -/
def byteTakeOpt : List Char → Nat → Option (List Char)
  | _, 0 => some []
  | [], _ + 1 => none
  | c :: rest, n + 1 =>
    if c.utf8Size ≤ n + 1 then (byteTakeOpt rest (n + 1 - c.utf8Size)).map (c :: ·)
    else none

/-- The scheme separator literal `"://"`. -/
def schemeSep : List Char := [':', '/', '/']

/-- The dot separator literal `"."`. -/
def dotSep : List Char := ['.']

/-- Backward loop of `UrlScanner::find_start`: processes the reversed
`char_indices` list, accumulating `first` (offset of the leftmost ASCII letter
seen so far) and `digit` (offset of the last digit, or of `/` / `:` when
`no_proto` is set).  Any other non-scheme character breaks the loop. -/
def findStartLoop (no_proto : Bool) :
    List (Nat × Char) → Option Nat → Option Nat → Option Nat × Option Nat
  | [], first, digit => (first, digit)
  | (i, c) :: rest, first, digit =>
    if c.isAlpha then findStartLoop no_proto rest (some i) digit
    else if c.isDigit then findStartLoop no_proto rest first (some i)
    else if (c = ':' ∨ c = '/') ∧ no_proto = true then
      findStartLoop no_proto rest first (some i)
    else if c = '+' ∨ c = '-' ∨ c = '.' then findStartLoop no_proto rest first digit
    else (first, digit)

/-- The `(first, digit)` accumulators produced by `find_start`'s backward scan
over `s.char_indices().rev()`. -/
def findStartScan (no_proto : Bool) (s : List Char) : Option Nat × Option Nat :=
  findStartLoop no_proto (charIndices s).reverse none none

/-- `UrlScanner::find_start`: backward scan plus the post-check rejecting a
first letter immediately preceded by a recorded digit/special offset. -/
def find_start (no_proto : Bool) (s : List Char) : Option Nat :=
  match findStartScan no_proto s with
  | (first, digit) =>
    match first, digit with
    | some f, some d => if 0 < f ∧ f - 1 = d then none else some f
    | some f, none => some f
    | none, _ => none

/-- Mutable state of the `UrlScanner::find_end` loop. -/
structure EndState where
  round : Int
  square : Int
  curly : Int
  singleQuote : Bool
  prevCanBeLast : Bool
  endPos : Option Nat
  deriving Repr, DecidableEq

/-- Initial `find_end` state: counters `0`, quote parity `false`,
`previous_can_be_last = true`, no recorded end. -/
def initEndState : EndState :=
  { round := 0, square := 0, curly := 0, singleQuote := false,
    prevCanBeLast := true, endPos := none }

/-- Characters that can never be part of a URL (`find_end`'s first match arm):
control characters, space, `"`, `<`, `>`, backtick, and `0x7F`–`0x9F`. -/
def isUrlBreakChar (c : Char) : Bool :=
  c.toNat ≤ 0x1F || c = ' ' || c = '\"' || c = '<' || c = '>' || c = '`' ||
    (0x7F ≤ c.toNat && c.toNat ≤ 0x9F)

/-- Record the character at byte offset `i` as processed: update `end` when it
can be the last character of the URL, and remember `previous_can_be_last`. -/
def setLast (st : EndState) (i : Nat) (c : Char) (canBeLast : Bool) : EndState :=
  { st with
    endPos := if canBeLast then some (i + c.utf8Size) else st.endPos,
    prevCanBeLast := canBeLast }

/-- One iteration of the `find_end` loop on the character `c` at byte offset
`i`: `Sum.inl` is the updated state, `Sum.inr e` models `break` (the loop stops
and `find_end` returns `e`). -/
def findEndStep (st : EndState) (i : Nat) (c : Char) : EndState ⊕ Option Nat :=
  if isUrlBreakChar c then Sum.inr st.endPos
  else if c = '?' ∨ c = '!' ∨ c = '.' ∨ c = ',' ∨ c = ':' ∨ c = ';' then
    Sum.inl (setLast st i c false)
  else if c = '/' then Sum.inl (setLast st i c st.prevCanBeLast)
  else if c = '(' then Sum.inl (setLast { st with round := st.round + 1 } i c false)
  else if c = ')' then
    if st.round - 1 < 0 then Sum.inr st.endPos
    else Sum.inl (setLast { st with round := st.round - 1 } i c true)
  else if c = '[' then Sum.inl (setLast { st with square := st.square + 1 } i c false)
  else if c = ']' then
    if st.square - 1 < 0 then Sum.inr st.endPos
    else Sum.inl (setLast { st with square := st.square - 1 } i c true)
  else if c = '{' then Sum.inl (setLast { st with curly := st.curly + 1 } i c false)
  else if c = '}' then
    if st.curly - 1 < 0 then Sum.inr st.endPos
    else Sum.inl (setLast { st with curly := st.curly - 1 } i c true)
  else if c = '\'' then
    Sum.inl (setLast { st with singleQuote := !st.singleQuote } i c st.singleQuote)
  else Sum.inl (setLast st i c true)

/-- The `find_end` loop over a byte-indexed character list: `Sum.inl` is the
final state when the list is exhausted, `Sum.inr e` the result of a `break`. -/
def findEndGo : List (Nat × Char) → EndState → EndState ⊕ Option Nat
  | [], st => Sum.inl st
  | (i, c) :: rest, st =>
    match findEndStep st i c with
    | Sum.inl st' => findEndGo rest st'
    | Sum.inr e => Sum.inr e

/-- The value `find_end` returns when its loop runs over `l` from state `st`. -/
def resultEnd (l : List (Nat × Char)) (st : EndState) : Option Nat :=
  match findEndGo l st with
  | Sum.inl st' => st'.endPos
  | Sum.inr e => e

/-- `UrlScanner::find_end`: forward scan over `s.char_indices()` returning the
last recorded eligible end boundary (or `none`). -/
def find_end (s : List Char) : Option Nat :=
  resultEnd (charIndices s) initEndState

/-- Separator detection of `UrlScanner::scan`: the text at the separator
offset must start with `"://"` (checked first) or `"."`. -/
def detectSep (tail : List Char) : Option (List Char) :=
  if schemeSep.isPrefixOf tail then some schemeSep
  else if dotSep.isPrefixOf tail then some dotSep
  else none

/-- `UrlScanner::scan` for a scanner with field `no_proto`.  The outer `Option`
models a Rust panic (`none` iff a byte slice falls inside a multi-byte
character); the inner `Option` is the scanner's result: `none` is no-match,
`some (start, end)` the matched half-open byte span. -/
def scan (no_proto : Bool) (s : List Char) (separator : Nat) :
    Option (Option (Nat × Nat)) :=
  if separator = 0 then some none
  else
    match byteDropOpt s separator with
    | none => none
    | some tail =>
      match detectSep tail with
      | none => some none
      | some lit =>
        if separator + byteLen lit < byteLen s then
          match byteTakeOpt s separator with
          | none => none
          | some pre =>
            match find_start no_proto pre with
            | none => some none
            | some start =>
              match byteDropOpt s (separator + byteLen lit) with
              | none => none
              | some tail2 =>
                match find_end tail2 with
                | none => some none
                | some e => some (some (start, separator + byteLen lit + e))
        else some none

/-! ### Byte-offset lemmas -/

theorem byteLen_append (a b : List Char) :
    byteLen (a ++ b) = byteLen a + byteLen b := by
  induction a with
  | nil => simp [byteLen]
  | cons c rest ih => simp [byteLen, ih]; omega

theorem charIndicesFrom_append (a b : List Char) (base : Nat) :
    charIndicesFrom base (a ++ b) =
      charIndicesFrom base a ++ charIndicesFrom (base + byteLen a) b := by
  induction a generalizing base with
  | nil => simp [charIndicesFrom, byteLen]
  | cons c rest ih =>
    have h : base + byteLen (c :: rest) = base + c.utf8Size + byteLen rest := by
      simp only [byteLen]; omega
    calc charIndicesFrom base ((c :: rest) ++ b)
        = (base, c) :: charIndicesFrom (base + c.utf8Size) (rest ++ b) := rfl
      _ = (base, c) :: (charIndicesFrom (base + c.utf8Size) rest ++
            charIndicesFrom (base + c.utf8Size + byteLen rest) b) := by rw [ih]
      _ = charIndicesFrom base (c :: rest) ++
            charIndicesFrom (base + byteLen (c :: rest)) b := by rw [h]; rfl

theorem byteDropOpt_zero (s : List Char) : byteDropOpt s 0 = some s := by
  cases s <;> rfl

theorem byteDropOpt_byteLen_eq {s t : List Char} {n : Nat}
    (h : byteDropOpt s n = some t) : n + byteLen t = byteLen s := by
  induction s generalizing n with
  | nil =>
    cases n with
    | zero =>
      simp only [byteDropOpt, Option.some.injEq] at h
      subst h
      simp [byteLen]
    | succ m => simp [byteDropOpt] at h
  | cons c rest ih =>
    cases n with
    | zero =>
      simp [byteDropOpt] at h
      subst h; omega
    | succ m =>
      simp only [byteDropOpt] at h
      split at h
      · have := ih h
        have hc := Char.utf8Size_pos c
        simp only [byteLen]
        omega
      · exact absurd h (by simp)

theorem byteTakeOpt_append_of_byteDropOpt {s t : List Char} {n : Nat}
    (h : byteDropOpt s n = some t) :
    ∃ pre, byteTakeOpt s n = some pre ∧ s = pre ++ t ∧ byteLen pre = n := by
  induction s generalizing n with
  | nil =>
    cases n with
    | zero =>
      simp [byteDropOpt] at h
      exact ⟨[], by simp [byteTakeOpt, byteLen, h]⟩
    | succ m => simp [byteDropOpt] at h
  | cons c rest ih =>
    cases n with
    | zero =>
      simp [byteDropOpt] at h
      exact ⟨[], by simp [byteTakeOpt, byteLen, h]⟩
    | succ m =>
      simp only [byteDropOpt] at h
      split at h
      next hle =>
        obtain ⟨pre, h1, h2, h3⟩ := ih h
        refine ⟨c :: pre, ?_, by simp [h2], ?_⟩
        · simp only [byteTakeOpt]
          rw [if_pos hle, h1]
          rfl
        · simp only [byteLen, h3]
          omega
      · exact absurd h (by simp)

theorem byteDropOpt_add {s t u : List Char} {a b : Nat}
    (h1 : byteDropOpt s a = some t) (h2 : byteDropOpt t b = some u) :
    byteDropOpt s (a + b) = some u := by
  induction s generalizing a with
  | nil =>
    cases a with
    | zero => simp [byteDropOpt] at h1; subst h1; simpa using h2
    | succ m => simp [byteDropOpt] at h1
  | cons c rest ih =>
    cases a with
    | zero =>
      simp [byteDropOpt] at h1
      subst h1; simpa using h2
    | succ m =>
      simp only [byteDropOpt] at h1
      split at h1
      next hle =>
        have h3 := ih h1
        have hsz := Char.utf8Size_pos c
        have : m + 1 + b = (m + 1 - c.utf8Size + b) + c.utf8Size := by omega
        rw [this]
        show byteDropOpt (c :: rest) (m + 1 - c.utf8Size + b + c.utf8Size) = some u
        have harg : m + 1 - c.utf8Size + b + c.utf8Size = (m + 1 - c.utf8Size + b + c.utf8Size - 1) + 1 := by
          omega
        rw [harg]
        simp only [byteDropOpt]
        rw [if_pos (by omega)]
        have : m + 1 - c.utf8Size + b + c.utf8Size - 1 + 1 - c.utf8Size = m + 1 - c.utf8Size + b := by
          omega
        rw [this]
        exact h3
      · exact absurd h1 (by simp)

theorem byteDropOpt_append (a b : List Char) :
    byteDropOpt (a ++ b) (byteLen a) = some b := by
  induction a with
  | nil => simpa [byteLen] using byteDropOpt_zero b
  | cons c rest ih =>
    have hsz := Char.utf8Size_pos c
    simp only [List.cons_append, byteLen]
    have : c.utf8Size + byteLen rest = byteLen rest + c.utf8Size := by omega
    rw [this]
    have harg : byteLen rest + c.utf8Size = (byteLen rest + c.utf8Size - 1) + 1 := by omega
    rw [harg]
    simp only [byteDropOpt]
    rw [if_pos (by omega)]
    have : byteLen rest + c.utf8Size - 1 + 1 - c.utf8Size = byteLen rest := by omega
    rw [this]
    exact ih

theorem byteDropOpt_append_left {a u : List Char} {n : Nat}
    (h : byteDropOpt a n = some u) (b : List Char) :
    byteDropOpt (a ++ b) n = some (u ++ b) := by
  induction a generalizing n with
  | nil =>
    cases n with
    | zero => simp [byteDropOpt] at h; subst h; simp [byteDropOpt_zero]
    | succ m => simp [byteDropOpt] at h
  | cons c rest ih =>
    cases n with
    | zero =>
      simp [byteDropOpt] at h
      subst h; simp [byteDropOpt_zero]
    | succ m =>
      simp only [byteDropOpt] at h
      split at h
      next hle =>
        simp only [List.cons_append, byteDropOpt]
        rw [if_pos hle]
        exact ih h
      · exact absurd h (by simp)

theorem mem_charIndicesFrom {s : List Char} {base i : Nat} {c : Char}
    (h : (i, c) ∈ charIndicesFrom base s) :
    base ≤ i ∧ ∃ rest, byteDropOpt s (i - base) = some (c :: rest) := by
  induction s generalizing base with
  | nil => simp [charIndicesFrom] at h
  | cons d rest ih =>
    simp only [charIndicesFrom, List.mem_cons] at h
    rcases h with h | h
    · rw [Prod.mk.injEq] at h
      obtain ⟨h1, h2⟩ := h
      subst h1; subst h2
      exact ⟨le_refl _, rest, by rw [Nat.sub_self, byteDropOpt_zero]⟩
    · obtain ⟨hle, r, hr⟩ := ih h
      have hsz := Char.utf8Size_pos d
      refine ⟨by omega, r, ?_⟩
      have harg : i - base = (i - base - 1) + 1 := by omega
      rw [harg]
      simp only [byteDropOpt]
      rw [if_pos (by omega)]
      have : i - base - 1 + 1 - d.utf8Size = i - (base + d.utf8Size) := by omega
      rw [this]
      exact hr

theorem isPrefixOf_exists {a b : List Char} (h : a.isPrefixOf b = true) :
    ∃ t, b = a ++ t := by
  induction a generalizing b with
  | nil => exact ⟨b, rfl⟩
  | cons c rest ih =>
    cases b with
    | nil => simp [List.isPrefixOf] at h
    | cons d rb =>
      simp only [List.isPrefixOf, Bool.and_eq_true, beq_iff_eq] at h
      obtain ⟨h1, h2⟩ := h
      obtain ⟨t, ht⟩ := ih h2
      exact ⟨t, by simp [h1, ht]⟩

/-! ### `find_end` step lemmas -/

/-- Bracket balance contribution of one character: `+1` on the opening
bracket `o`, `-1` on the closing bracket `cl`, `0` otherwise. -/
def chDelta (o cl x : Char) : Int :=
  if x = o then 1 else if x = cl then -1 else 0

theorem setLast_endPos (st : EndState) (i : Nat) (c : Char) (b : Bool) :
    (setLast st i c b).endPos = st.endPos ∨
      (setLast st i c b).endPos = some (i + c.utf8Size) := by
  cases b <;> simp [setLast]

/-- Case-analysis principle for `findEndStep`, mirroring the match arms of the
Rust `find_end` loop body. -/
theorem findEndStep_elim {motive : EndState ⊕ Option Nat → Prop}
    (st : EndState) (i : Nat) (c : Char)
    (h1 : isUrlBreakChar c = true → motive (Sum.inr st.endPos))
    (h2 : c = '?' ∨ c = '!' ∨ c = '.' ∨ c = ',' ∨ c = ':' ∨ c = ';' →
      motive (Sum.inl (setLast st i c false)))
    (h3 : c = '/' → motive (Sum.inl (setLast st i c st.prevCanBeLast)))
    (h4 : c = '(' → motive (Sum.inl (setLast { st with round := st.round + 1 } i c false)))
    (h5 : c = ')' → st.round - 1 < 0 → motive (Sum.inr st.endPos))
    (h6 : c = ')' → ¬st.round - 1 < 0 →
      motive (Sum.inl (setLast { st with round := st.round - 1 } i c true)))
    (h7 : c = '[' → motive (Sum.inl (setLast { st with square := st.square + 1 } i c false)))
    (h8 : c = ']' → st.square - 1 < 0 → motive (Sum.inr st.endPos))
    (h9 : c = ']' → ¬st.square - 1 < 0 →
      motive (Sum.inl (setLast { st with square := st.square - 1 } i c true)))
    (h10 : c = '{' → motive (Sum.inl (setLast { st with curly := st.curly + 1 } i c false)))
    (h11 : c = '}' → st.curly - 1 < 0 → motive (Sum.inr st.endPos))
    (h12 : c = '}' → ¬st.curly - 1 < 0 →
      motive (Sum.inl (setLast { st with curly := st.curly - 1 } i c true)))
    (h13 : c = '\'' →
      motive (Sum.inl (setLast { st with singleQuote := !st.singleQuote } i c st.singleQuote)))
    (h14 : isUrlBreakChar c = false →
      ¬(c = '?' ∨ c = '!' ∨ c = '.' ∨ c = ',' ∨ c = ':' ∨ c = ';') →
      c ≠ '/' → c ≠ '(' → c ≠ ')' → c ≠ '[' → c ≠ ']' → c ≠ '{' → c ≠ '}' → c ≠ '\'' →
      motive (Sum.inl (setLast st i c true))) :
    motive (findEndStep st i c) := by
  rw [findEndStep.eq_def]
  by_cases hc1 : isUrlBreakChar c = true
  · rw [if_pos hc1]; exact h1 hc1
  · rw [if_neg hc1]
    by_cases hc2 : c = '?' ∨ c = '!' ∨ c = '.' ∨ c = ',' ∨ c = ':' ∨ c = ';'
    · rw [if_pos hc2]; exact h2 hc2
    · rw [if_neg hc2]
      by_cases hc3 : c = '/'
      · rw [if_pos hc3]; exact h3 hc3
      · rw [if_neg hc3]
        by_cases hc4 : c = '('
        · rw [if_pos hc4]; exact h4 hc4
        · rw [if_neg hc4]
          by_cases hc5 : c = ')'
          · rw [if_pos hc5]
            by_cases hg : st.round - 1 < 0
            · rw [if_pos hg]; exact h5 hc5 hg
            · rw [if_neg hg]; exact h6 hc5 hg
          · rw [if_neg hc5]
            by_cases hc6 : c = '['
            · rw [if_pos hc6]; exact h7 hc6
            · rw [if_neg hc6]
              by_cases hc7 : c = ']'
              · rw [if_pos hc7]
                by_cases hg : st.square - 1 < 0
                · rw [if_pos hg]; exact h8 hc7 hg
                · rw [if_neg hg]; exact h9 hc7 hg
              · rw [if_neg hc7]
                by_cases hc8 : c = '{'
                · rw [if_pos hc8]; exact h10 hc8
                · rw [if_neg hc8]
                  by_cases hc9 : c = '}'
                  · rw [if_pos hc9]
                    by_cases hg : st.curly - 1 < 0
                    · rw [if_pos hg]; exact h11 hc9 hg
                    · rw [if_neg hg]; exact h12 hc9 hg
                  · rw [if_neg hc9]
                    by_cases hc10 : c = '\''
                    · rw [if_pos hc10]; exact h13 hc10
                    · rw [if_neg hc10]
                      exact h14 ((Bool.not_eq_true _) ▸ hc1)
                        hc2 hc3 hc4 hc5 hc6 hc7 hc8 hc9 hc10

theorem findEndStep_inr {st : EndState} {i : Nat} {c : Char} {e : Option Nat}
    (h : findEndStep st i c = Sum.inr e) : e = st.endPos := by
  have key := findEndStep_elim
    (motive := fun r => r = Sum.inr e → e = st.endPos) st i c
    (fun _ heq => by injection heq with h2; exact h2.symm)
    (fun _ heq => by simp at heq)
    (fun _ heq => by simp at heq)
    (fun _ heq => by simp at heq)
    (fun _ _ heq => by injection heq with h2; exact h2.symm)
    (fun _ _ heq => by simp at heq)
    (fun _ heq => by simp at heq)
    (fun _ _ heq => by injection heq with h2; exact h2.symm)
    (fun _ _ heq => by simp at heq)
    (fun _ heq => by simp at heq)
    (fun _ _ heq => by injection heq with h2; exact h2.symm)
    (fun _ _ heq => by simp at heq)
    (fun _ heq => by simp at heq)
    (fun _ _ _ _ _ _ _ _ _ _ heq => by simp at heq)
  exact key h

theorem findEndStep_inl_endPos {st : EndState} {i : Nat} {c : Char} {st' : EndState}
    (h : findEndStep st i c = Sum.inl st') :
    st'.endPos = st.endPos ∨ st'.endPos = some (i + c.utf8Size) := by
  have key := findEndStep_elim
    (motive := fun r =>
      r = Sum.inl st' → st'.endPos = st.endPos ∨ st'.endPos = some (i + c.utf8Size))
    st i c
    (fun _ heq => by simp at heq)
    (fun _ heq => by injection heq with h2; subst h2; exact setLast_endPos _ i c _)
    (fun _ heq => by injection heq with h2; subst h2; exact setLast_endPos _ i c _)
    (fun _ heq => by injection heq with h2; subst h2; exact setLast_endPos _ i c _)
    (fun _ _ heq => by simp at heq)
    (fun _ _ heq => by injection heq with h2; subst h2; exact setLast_endPos _ i c _)
    (fun _ heq => by injection heq with h2; subst h2; exact setLast_endPos _ i c _)
    (fun _ _ heq => by simp at heq)
    (fun _ _ heq => by injection heq with h2; subst h2; exact setLast_endPos _ i c _)
    (fun _ heq => by injection heq with h2; subst h2; exact setLast_endPos _ i c _)
    (fun _ _ heq => by simp at heq)
    (fun _ _ heq => by injection heq with h2; subst h2; exact setLast_endPos _ i c _)
    (fun _ heq => by injection heq with h2; subst h2; exact setLast_endPos _ i c _)
    (fun _ _ _ _ _ _ _ _ _ _ heq => by
      injection heq with h2; subst h2; exact setLast_endPos _ i c _)
  exact key h

theorem findEndStep_counters {st : EndState} {i : Nat} {c : Char} {st' : EndState}
    (h : findEndStep st i c = Sum.inl st') :
    st'.round = st.round + chDelta '(' ')' c ∧
    st'.square = st.square + chDelta '[' ']' c ∧
    st'.curly = st.curly + chDelta '{' '}' c ∧
    (0 ≤ st.round → 0 ≤ st'.round) ∧
    (0 ≤ st.square → 0 ≤ st'.square) ∧
    (0 ≤ st.curly → 0 ≤ st'.curly) := by
  have key := findEndStep_elim
    (motive := fun r => r = Sum.inl st' →
      st'.round = st.round + chDelta '(' ')' c ∧
      st'.square = st.square + chDelta '[' ']' c ∧
      st'.curly = st.curly + chDelta '{' '}' c ∧
      (0 ≤ st.round → 0 ≤ st'.round) ∧
      (0 ≤ st.square → 0 ≤ st'.square) ∧
      (0 ≤ st.curly → 0 ≤ st'.curly))
    st i c
    (fun _ heq => by simp at heq)
    (fun hc heq => by
      injection heq with h2
      subst h2
      rcases hc with rfl | rfl | rfl | rfl | rfl | rfl <;>
        exact ⟨by simp [setLast, chDelta], by simp [setLast, chDelta],
          by simp [setLast, chDelta], by simp [setLast], by simp [setLast],
          by simp [setLast]⟩)
    (fun hc heq => by
      injection heq with h2
      subst h2
      subst hc
      exact ⟨by simp [setLast, chDelta], by simp [setLast, chDelta],
        by simp [setLast, chDelta], by simp [setLast], by simp [setLast],
        by simp [setLast]⟩)
    (fun hc heq => by
      injection heq with h2
      subst h2
      subst hc
      refine ⟨by simp [setLast, chDelta], by simp [setLast, chDelta],
        by simp [setLast, chDelta], ?_, by simp [setLast], by simp [setLast]⟩
      intro hr
      simp only [setLast]
      omega)
    (fun _ _ heq => by simp at heq)
    (fun hc hg heq => by
      injection heq with h2
      subst h2
      subst hc
      refine ⟨?_, by simp [setLast, chDelta], by simp [setLast, chDelta],
        ?_, by simp [setLast], by simp [setLast]⟩
      · simp only [setLast]
        have hd : chDelta '(' ')' ')' = -1 := by decide
        rw [hd]
        omega
      · intro hr
        simp only [setLast]
        omega)
    (fun hc heq => by
      injection heq with h2
      subst h2
      subst hc
      refine ⟨by simp [setLast, chDelta], by simp [setLast, chDelta],
        by simp [setLast, chDelta], by simp [setLast], ?_, by simp [setLast]⟩
      intro hr
      simp only [setLast]
      omega)
    (fun _ _ heq => by simp at heq)
    (fun hc hg heq => by
      injection heq with h2
      subst h2
      subst hc
      refine ⟨by simp [setLast, chDelta], ?_, by simp [setLast, chDelta],
        by simp [setLast], ?_, by simp [setLast]⟩
      · simp only [setLast]
        have hd : chDelta '[' ']' ']' = -1 := by decide
        rw [hd]
        omega
      · intro hr
        simp only [setLast]
        omega)
    (fun hc heq => by
      injection heq with h2
      subst h2
      subst hc
      refine ⟨by simp [setLast, chDelta], by simp [setLast, chDelta],
        by simp [setLast, chDelta], by simp [setLast], by simp [setLast], ?_⟩
      intro hr
      simp only [setLast]
      omega)
    (fun _ _ heq => by simp at heq)
    (fun hc hg heq => by
      injection heq with h2
      subst h2
      subst hc
      refine ⟨by simp [setLast, chDelta], by simp [setLast, chDelta], ?_,
        by simp [setLast], by simp [setLast], ?_⟩
      · simp only [setLast]
        have hd : chDelta '{' '}' '}' = -1 := by decide
        rw [hd]
        omega
      · intro hr
        simp only [setLast]
        omega)
    (fun hc heq => by
      injection heq with h2
      subst h2
      subst hc
      exact ⟨by simp [setLast, chDelta], by simp [setLast, chDelta],
        by simp [setLast, chDelta], by simp [setLast], by simp [setLast],
        by simp [setLast]⟩)
    (fun _ _ _ hn4 hn5 hn6 hn7 hn8 hn9 _ heq => by
      injection heq with h2
      subst h2
      exact ⟨by simp [setLast, chDelta, hn4, hn5],
        by simp [setLast, chDelta, hn6, hn7],
        by simp [setLast, chDelta, hn8, hn9],
        by simp [setLast], by simp [setLast], by simp [setLast]⟩)
  exact key h

theorem resultEnd_nil (st : EndState) : resultEnd [] st = st.endPos := rfl

theorem resultEnd_cons_inr {i : Nat} {c : Char} {st : EndState} {e : Option Nat}
    (hstep : findEndStep st i c = Sum.inr e) (rest : List (Nat × Char)) :
    resultEnd ((i, c) :: rest) st = e := by
  simp [resultEnd, findEndGo, hstep]

theorem resultEnd_cons_inl {i : Nat} {c : Char} {st st' : EndState}
    (hstep : findEndStep st i c = Sum.inl st') (rest : List (Nat × Char)) :
    resultEnd ((i, c) :: rest) st = resultEnd rest st' := by
  simp [resultEnd, findEndGo, hstep]

theorem findEndGo_append (a b : List (Nat × Char)) (st : EndState) :
    findEndGo (a ++ b) st =
      match findEndGo a st with
      | Sum.inl st' => findEndGo b st'
      | Sum.inr e => Sum.inr e := by
  induction a generalizing st with
  | nil => rfl
  | cons p rest ih =>
    obtain ⟨i, c⟩ := p
    simp only [List.cons_append, findEndGo]
    cases hstep : findEndStep st i c with
    | inl st' => simp [hstep, ih]
    | inr e => simp [hstep]

/-- If the scanning state records an end position, the loop result is `some`
and not smaller (`end` is only ever overwritten by larger offsets). -/
theorem resultEnd_mono :
    ∀ (s : List Char) (base : Nat) (st : EndState) (x : Nat),
      st.endPos = some x →
      (∀ y, st.endPos = some y → y ≤ base) →
      ∃ e, resultEnd (charIndicesFrom base s) st = some e ∧ x ≤ e := by
  intro s
  induction s with
  | nil =>
    intro base st x hx _
    exact ⟨x, by simp [charIndicesFrom, resultEnd_nil, hx], le_refl x⟩
  | cons c rest ih =>
    intro base st x hx hle
    simp only [charIndicesFrom]
    cases hstep : findEndStep st base c with
    | inr e =>
      have he := findEndStep_inr hstep
      rw [resultEnd_cons_inr hstep]
      exact ⟨x, by rw [he, hx], le_refl x⟩
    | inl st' =>
      rw [resultEnd_cons_inl hstep]
      have hsz := Char.utf8Size_pos c
      rcases findEndStep_inl_endPos hstep with heq | heq
      · obtain ⟨e, h1, h2⟩ := ih (base + c.utf8Size) st' x (heq.trans hx)
          (fun y hy => by
            have := hle y (heq ▸ hy)
            omega)
        exact ⟨e, h1, h2⟩
      · obtain ⟨e, h1, h2⟩ := ih (base + c.utf8Size) st' (base + c.utf8Size) heq
          (fun y hy => by
            rw [heq] at hy
            cases hy
            omega)
        refine ⟨e, h1, ?_⟩
        have := hle x hx
        omega

/-- Bounds on a successful `find_end`-loop result: it is positive and at most
`base` plus the byte length of the remaining text. -/
theorem resultEnd_bounds :
    ∀ (s : List Char) (base : Nat) (st : EndState) (e : Nat),
      (∀ x, st.endPos = some x → 1 ≤ x ∧ x ≤ base) →
      resultEnd (charIndicesFrom base s) st = some e →
      1 ≤ e ∧ e ≤ base + byteLen s := by
  intro s
  induction s with
  | nil =>
    intro base st e hinv h
    simp only [charIndicesFrom, resultEnd_nil] at h
    have := hinv e h
    simp only [byteLen]
    omega
  | cons c rest ih =>
    intro base st e hinv h
    simp only [charIndicesFrom] at h
    have hsz := Char.utf8Size_pos c
    cases hstep : findEndStep st base c with
    | inr e' =>
      rw [resultEnd_cons_inr hstep] at h
      have he := findEndStep_inr hstep
      subst he
      have := hinv e h
      simp only [byteLen]
      omega
    | inl st' =>
      rw [resultEnd_cons_inl hstep] at h
      have hinv' : ∀ x, st'.endPos = some x → 1 ≤ x ∧ x ≤ base + c.utf8Size := by
        intro x hx
        rcases findEndStep_inl_endPos hstep with heq | heq
        · have := hinv x (heq ▸ hx)
          omega
        · rw [heq] at hx
          cases hx
          omega
      have := ih (base + c.utf8Size) st' e hinv' h
      simp only [byteLen]
      omega

/-- Bounds on `find_end` itself: a returned end offset is positive and at most
the byte length of the scanned text. -/
theorem find_end_bounds {s : List Char} {e : Nat} (h : find_end s = some e) :
    1 ≤ e ∧ e ≤ byteLen s := by
  have := resultEnd_bounds s 0 initEndState e
    (fun x hx => by simp [initEndState] at hx) h
  omega

/-! ### Structural facts about the `find_end` loop -/

theorem findEndStep_break {st : EndState} {i : Nat} {c : Char}
    (h : isUrlBreakChar c = true) : findEndStep st i c = Sum.inr st.endPos := by
  rw [findEndStep.eq_def, if_pos h]

/-- Running balance of a bracket pair over a character list. -/
def listBal (o cl : Char) : List Char → Int
  | [] => 0
  | c :: rest => chDelta o cl c + listBal o cl rest

/-- Bracket-balance invariant of the `find_end` loop: while the scan result
reaches at least the end of a prefix, the running balances over that prefix
(offset by the counters of the starting state) are nonnegative. -/
theorem resultEnd_balance :
    ∀ (s : List Char) (base : Nat) (st : EndState) (e : Nat),
      0 ≤ st.round → 0 ≤ st.square → 0 ≤ st.curly →
      (∀ x, st.endPos = some x → x ≤ base) →
      resultEnd (charIndicesFrom base s) st = some e →
      ∀ n, base + byteLen (s.take n) ≤ e →
        0 ≤ st.round + listBal '(' ')' (s.take n) ∧
        0 ≤ st.square + listBal '[' ']' (s.take n) ∧
        0 ≤ st.curly + listBal '{' '}' (s.take n) := by
  intro s
  induction s with
  | nil =>
    intro base st e hr hs hc _ _ n _
    simp only [List.take_nil, listBal]
    omega
  | cons c rest ih =>
    intro base st e hr hs hc hinv h n hle
    cases n with
    | zero =>
      simp only [List.take_zero, listBal]
      omega
    | succ m =>
      simp only [List.take_succ_cons, byteLen] at hle
      simp only [charIndicesFrom] at h
      have hsz := Char.utf8Size_pos c
      cases hstep : findEndStep st base c with
      | inr e' =>
        rw [resultEnd_cons_inr hstep] at h
        have he := findEndStep_inr hstep
        subst he
        have := hinv e h
        omega
      | inl st' =>
        rw [resultEnd_cons_inl hstep] at h
        obtain ⟨hr', hs', hc', hrn, hsn, hcn⟩ := findEndStep_counters hstep
        have hinv' : ∀ x, st'.endPos = some x → x ≤ base + c.utf8Size := by
          intro x hx
          rcases findEndStep_inl_endPos hstep with heq | heq
          · have := hinv x (heq ▸ hx)
            omega
          · rw [heq] at hx
            cases hx
            omega
        have := ih (base + c.utf8Size) st' e (hrn hr) (hsn hs) (hcn hc) hinv' h m
          (by omega)
        simp only [List.take_succ_cons, listBal]
        omega

/-- No character whose end precedes the returned end boundary can be an
illegal (scan-terminating) character. -/
theorem resultEnd_no_break_within :
    ∀ (pre : List Char) (c : Char) (post : List Char) (base : Nat)
      (st : EndState) (e : Nat),
      (∀ x, st.endPos = some x → x ≤ base) →
      resultEnd (charIndicesFrom base (pre ++ c :: post)) st = some e →
      base + byteLen pre < e →
      isUrlBreakChar c = false := by
  intro pre
  induction pre with
  | nil =>
    intro c post base st e hinv h hlt
    simp only [List.nil_append, charIndicesFrom] at h
    simp only [byteLen] at hlt
    cases hbr : isUrlBreakChar c with
    | false => rfl
    | true =>
      rw [resultEnd_cons_inr (findEndStep_break hbr)] at h
      have := hinv e h
      omega
  | cons p pre' ih =>
    intro c post base st e hinv h hlt
    simp only [List.cons_append, charIndicesFrom] at h
    simp only [byteLen] at hlt
    have hsz := Char.utf8Size_pos p
    cases hstep : findEndStep st base p with
    | inr e' =>
      rw [resultEnd_cons_inr hstep] at h
      have he := findEndStep_inr hstep
      subst he
      have := hinv e h
      omega
    | inl st' =>
      rw [resultEnd_cons_inl hstep] at h
      refine ih c post (base + p.utf8Size) st' e ?_ h (by omega)
      intro x hx
      rcases findEndStep_inl_endPos hstep with heq | heq
      · have := hinv x (heq ▸ hx)
        omega
      · rw [heq] at hx
        cases hx
        omega

/-- A successful loop result is either the starting state's recorded end or
the end offset of some character of the scanned list. -/
theorem resultEnd_mem :
    ∀ (l : List (Nat × Char)) (st : EndState) (e : Nat),
      resultEnd l st = some e →
      st.endPos = some e ∨ ∃ i c, (i, c) ∈ l ∧ e = i + c.utf8Size := by
  intro l
  induction l with
  | nil =>
    intro st e h
    exact Or.inl h
  | cons p rest ih =>
    intro st e h
    obtain ⟨i, c⟩ := p
    cases hstep : findEndStep st i c with
    | inr e' =>
      rw [resultEnd_cons_inr hstep] at h
      have he := findEndStep_inr hstep
      subst he
      exact Or.inl h
    | inl st' =>
      rw [resultEnd_cons_inl hstep] at h
      rcases ih st' e h with hend | ⟨j, d, hmem, hje⟩
      · rcases findEndStep_inl_endPos hstep with heq | heq
        · exact Or.inl (heq ▸ hend)
        · rw [heq] at hend
          cases hend
          exact Or.inr ⟨i, c, List.mem_cons_self _ _, rfl⟩
      · exact Or.inr ⟨j, d, List.mem_cons_of_mem _ hmem, hje⟩

theorem findEndStep_quote (st : EndState) (i : Nat) :
    findEndStep st i '\'' =
      Sum.inl (setLast { st with singleQuote := !st.singleQuote } i '\'' st.singleQuote) := by
  rw [findEndStep.eq_def]
  rw [if_neg (by decide), if_neg (by decide), if_neg (by decide), if_neg (by decide),
    if_neg (by decide), if_neg (by decide), if_neg (by decide), if_neg (by decide),
    if_neg (by decide), if_pos rfl]

/-- Effect of the `find_end` loop on a run of `k` single quotes entered with
closed (even) quote parity: an even run records its own final offset, an odd
run of length at least two records the offset one before its end, and a run of
length one leaves the recorded end unchanged. -/
theorem resultEnd_quoteRun :
    ∀ (k base : Nat) (st : EndState), st.singleQuote = false →
      resultEnd (charIndicesFrom base (List.replicate k '\'')) st =
        if k = 0 then st.endPos
        else if k % 2 = 0 then some (base + k)
        else if k = 1 then st.endPos
        else some (base + k - 1) := by
  intro k
  induction k using Nat.strong_induction_on with
  | _ k ih =>
    rcases k with _ | k1
    · intro base st hsq
      simp [List.replicate, charIndicesFrom, resultEnd_nil]
    · rcases k1 with _ | m
      · intro base st hsq
        show resultEnd (charIndicesFrom base ['\'']) st = _
        simp only [charIndicesFrom]
        rw [resultEnd_cons_inl (findEndStep_quote st base)]
        rw [resultEnd_nil]
        simp [setLast, hsq]
      · intro base st hsq
        show resultEnd (charIndicesFrom base ('\'' :: '\'' :: List.replicate m '\'')) st = _
        have hsz : ('\'' : Char).utf8Size = 1 := rfl
        simp only [charIndicesFrom, hsz]
        rw [resultEnd_cons_inl (findEndStep_quote st base)]
        rw [resultEnd_cons_inl (findEndStep_quote _ (base + 1))]
        generalize hst2 :
          setLast
            { setLast { st with singleQuote := !st.singleQuote } base '\'' st.singleQuote with
              singleQuote :=
                !(setLast { st with singleQuote := !st.singleQuote } base '\''
                    st.singleQuote).singleQuote }
            (base + 1) '\''
            (setLast { st with singleQuote := !st.singleQuote } base '\''
              st.singleQuote).singleQuote = st2
        have hsq2 : st2.singleQuote = false := by
          rw [← hst2]
          simp [setLast, hsq]
        have hend2 : st2.endPos = some (base + 2) := by
          rw [← hst2]
          simp [setLast, hsq, hsz]
        rw [ih m (by omega) (base + 1 + 1) st2 hsq2]
        have harith : base + 1 + 1 = base + 2 := by omega
        rw [harith]
        by_cases hm0 : m = 0
        · subst hm0
          simp [hend2]
        · have hmod : (m + 1 + 1) % 2 = m % 2 := by omega
          by_cases hme : m % 2 = 0
          · rw [if_neg hm0, if_pos hme, if_neg (by omega), if_pos (by omega)]
            exact congrArg some (by omega)
          · by_cases hm1 : m = 1
            · subst hm1
              simp [hend2]
            · rw [if_neg hm0, if_neg hme, if_neg hm1, if_neg (by omega),
                if_neg (by omega), if_neg (by omega)]
              exact congrArg some (by omega)

/-! ### Structural facts about `find_start` -/

/-- The `first` accumulator of the backward scan only ever holds the offset of
an ASCII letter of the scanned list (or its initial value). -/
theorem findStartLoop_first (np : Bool) :
    ∀ (l : List (Nat × Char)) (f0 d0 : Option Nat) (f : Nat),
      (findStartLoop np l f0 d0).1 = some f →
      f0 = some f ∨ ∃ c, (f, c) ∈ l ∧ c.isAlpha = true := by
  intro l
  induction l with
  | nil =>
    intro f0 d0 f h
    exact Or.inl h
  | cons p rest ih =>
    obtain ⟨i, c⟩ := p
    intro f0 d0 f h
    simp only [findStartLoop] at h
    by_cases h1 : c.isAlpha = true
    · rw [if_pos h1] at h
      rcases ih (some i) d0 f h with heq | ⟨c', hm, ha⟩
      · injection heq with heq'
        subst heq'
        exact Or.inr ⟨c, List.mem_cons_self _ _, h1⟩
      · exact Or.inr ⟨c', List.mem_cons_of_mem _ hm, ha⟩
    · rw [if_neg h1] at h
      by_cases h2 : c.isDigit = true
      · rw [if_pos h2] at h
        rcases ih f0 (some i) f h with heq | ⟨c', hm, ha⟩
        · exact Or.inl heq
        · exact Or.inr ⟨c', List.mem_cons_of_mem _ hm, ha⟩
      · rw [if_neg h2] at h
        by_cases h3 : (c = ':' ∨ c = '/') ∧ np = true
        · rw [if_pos h3] at h
          rcases ih f0 (some i) f h with heq | ⟨c', hm, ha⟩
          · exact Or.inl heq
          · exact Or.inr ⟨c', List.mem_cons_of_mem _ hm, ha⟩
        · rw [if_neg h3] at h
          by_cases h4 : c = '+' ∨ c = '-' ∨ c = '.'
          · rw [if_pos h4] at h
            rcases ih f0 d0 f h with heq | ⟨c', hm, ha⟩
            · exact Or.inl heq
            · exact Or.inr ⟨c', List.mem_cons_of_mem _ hm, ha⟩
          · rw [if_neg h4] at h
            exact Or.inl h

theorem find_start_first {np : Bool} {s : List Char} {f : Nat}
    (h : find_start np s = some f) :
    (findStartScan np s).1 = some f ∧
      (∀ d, (findStartScan np s).2 = some d → ¬(0 < f ∧ f - 1 = d)) := by
  unfold find_start at h
  split at h
  next first digit heq =>
    rw [heq]
    cases first with
    | none =>
      cases digit with
      | none => exact absurd (show (none : Option Nat) = some f from h) (by simp)
      | some d => exact absurd (show (none : Option Nat) = some f from h) (by simp)
    | some f' =>
      cases digit with
      | none =>
        have h' : some f' = some f := h
        injection h' with h2
        subst h2
        exact ⟨rfl, by intro d hd; simp at hd⟩
      | some d =>
        have h' : (if 0 < f' ∧ f' - 1 = d then (none : Option Nat) else some f') = some f := h
        by_cases hc : 0 < f' ∧ f' - 1 = d
        · rw [if_pos hc] at h'
          cases h'
        · rw [if_neg hc] at h'
          injection h' with h2
          subst h2
          refine ⟨rfl, ?_⟩
          intro d' hd'
          injection hd' with h3
          subst h3
          exact hc

/-- The post-check of `find_start`: a recorded letter offset one byte to the
right of a recorded digit/special offset rejects the candidate. -/
theorem find_start_reject {np : Bool} {s : List Char} {f d : Nat}
    (hsc : findStartScan np s = (some f, some d)) (hadj : f = d + 1) :
    find_start np s = none := by
  unfold find_start
  rw [hsc]
  show (if 0 < f ∧ f - 1 = d then (none : Option Nat) else some f) = none
  rw [if_pos ⟨by omega, by omega⟩]

/-- A successful `find_start` result is the byte offset of an ASCII letter of
the scanned text. -/
theorem find_start_mem {np : Bool} {s : List Char} {f : Nat}
    (h : find_start np s = some f) :
    ∃ c rest, byteDropOpt s f = some (c :: rest) ∧ c.isAlpha = true := by
  have h1 := (find_start_first h).1
  rcases findStartLoop_first np ((charIndices s).reverse) none none f h1 with heq | ⟨c, hm, ha⟩
  · cases heq
  · rw [List.mem_reverse] at hm
    obtain ⟨_, rest, hdrop⟩ := mem_charIndicesFrom hm
    exact ⟨c, rest, by simpa using hdrop, ha⟩

/-- A successful `find_start` result lies strictly inside the scanned text. -/
theorem find_start_lt {np : Bool} {s : List Char} {f : Nat}
    (h : find_start np s = some f) : f < byteLen s := by
  obtain ⟨c, rest, hdrop, _⟩ := find_start_mem h
  have := byteDropOpt_byteLen_eq hdrop
  have hsz := Char.utf8Size_pos c
  simp only [byteLen] at this
  omega

/-! ### Case analysis for `scan` -/

/-- Case-analysis principle for `scan`, following its control flow: early
no-match on offset `0`, panic on a bad slice, no-match when no separator
literal matches, when nothing follows the separator, or when either finder
fails, and otherwise the assembled span. -/
theorem scan_elim {motive : Option (Option (Nat × Nat)) → Prop}
    (np : Bool) (s : List Char) (p : Nat)
    (h0 : p = 0 → motive (some none))
    (h1 : p ≠ 0 → byteDropOpt s p = none → motive none)
    (h2 : ∀ tail, p ≠ 0 → byteDropOpt s p = some tail → detectSep tail = none →
      motive (some none))
    (h3 : ∀ tail lit, p ≠ 0 → byteDropOpt s p = some tail → detectSep tail = some lit →
      ¬p + byteLen lit < byteLen s → motive (some none))
    (h4 : ∀ tail lit, p ≠ 0 → byteDropOpt s p = some tail → detectSep tail = some lit →
      p + byteLen lit < byteLen s → byteTakeOpt s p = none → motive none)
    (h5 : ∀ tail lit pre, p ≠ 0 → byteDropOpt s p = some tail → detectSep tail = some lit →
      p + byteLen lit < byteLen s → byteTakeOpt s p = some pre →
      find_start np pre = none → motive (some none))
    (h6 : ∀ tail lit pre start, p ≠ 0 → byteDropOpt s p = some tail →
      detectSep tail = some lit → p + byteLen lit < byteLen s →
      byteTakeOpt s p = some pre → find_start np pre = some start →
      byteDropOpt s (p + byteLen lit) = none → motive none)
    (h7 : ∀ tail lit pre start tail2, p ≠ 0 → byteDropOpt s p = some tail →
      detectSep tail = some lit → p + byteLen lit < byteLen s →
      byteTakeOpt s p = some pre → find_start np pre = some start →
      byteDropOpt s (p + byteLen lit) = some tail2 → find_end tail2 = none →
      motive (some none))
    (h8 : ∀ tail lit pre start tail2 e, p ≠ 0 → byteDropOpt s p = some tail →
      detectSep tail = some lit → p + byteLen lit < byteLen s →
      byteTakeOpt s p = some pre → find_start np pre = some start →
      byteDropOpt s (p + byteLen lit) = some tail2 → find_end tail2 = some e →
      motive (some (some (start, p + byteLen lit + e)))) :
    motive (scan np s p) := by
  unfold scan
  by_cases hp : p = 0
  · rw [if_pos hp]
    exact h0 hp
  · rw [if_neg hp]
    cases ht : byteDropOpt s p with
    | none =>
      simp only [ht]
      exact h1 hp ht
    | some tail =>
      simp only [ht]
      cases hd : detectSep tail with
      | none =>
        simp only [hd]
        exact h2 tail hp ht hd
      | some lit =>
        simp only [hd]
        by_cases hroom : p + byteLen lit < byteLen s
        · rw [if_pos hroom]
          cases hpre : byteTakeOpt s p with
          | none =>
            simp only [hpre]
            exact h4 tail lit hp ht hd hroom hpre
          | some pre =>
            simp only [hpre]
            cases hfs : find_start np pre with
            | none =>
              simp only [hfs]
              exact h5 tail lit pre hp ht hd hroom hpre hfs
            | some start =>
              simp only [hfs]
              cases ht2 : byteDropOpt s (p + byteLen lit) with
              | none =>
                simp only [ht2]
                exact h6 tail lit pre start hp ht hd hroom hpre hfs ht2
              | some tail2 =>
                simp only [ht2]
                cases hfe : find_end tail2 with
                | none =>
                  simp only [hfe]
                  exact h7 tail lit pre start tail2 hp ht hd hroom hpre hfs ht2 hfe
                | some e =>
                  simp only [hfe]
                  exact h8 tail lit pre start tail2 e hp ht hd hroom hpre hfs ht2 hfe
        · rw [if_neg hroom]
          exact h3 tail lit hp ht hd hroom

theorem detectSep_some {tail lit : List Char} (h : detectSep tail = some lit) :
    (lit = schemeSep ∨ lit = dotSep) ∧ lit.isPrefixOf tail = true := by
  unfold detectSep at h
  by_cases h1 : schemeSep.isPrefixOf tail = true
  · rw [if_pos h1] at h
    injection h with h2
    subst h2
    exact ⟨Or.inl rfl, h1⟩
  · rw [if_neg h1] at h
    by_cases h2 : dotSep.isPrefixOf tail = true
    · rw [if_pos h2] at h
      injection h with h3
      subst h3
      exact ⟨Or.inr rfl, h2⟩
    · rw [if_neg h2] at h
      cases h

theorem detectSep_eq_none {tail : List Char}
    (h1 : schemeSep.isPrefixOf tail = false) (h2 : dotSep.isPrefixOf tail = false) :
    detectSep tail = none := by
  unfold detectSep
  rw [if_neg (by simp [h1]), if_neg (by simp [h2])]

theorem byteDropOpt_after_lit {s tail lit rest : List Char} {p : Nat}
    (ht : byteDropOpt s p = some tail) (heq : tail = lit ++ rest) :
    byteDropOpt s (p + byteLen lit) = some rest :=
  byteDropOpt_add ht (heq ▸ byteDropOpt_append lit rest)

/-- Inversion of a successful `scan`: all intermediate steps succeeded and the
span is assembled from the two finder results. -/
theorem scan_some_inv {np : Bool} {s : List Char} {p : Nat} {st en : Nat}
    (h : scan np s p = some (some (st, en))) :
    ∃ tail lit pre tail2 e,
      p ≠ 0 ∧ byteDropOpt s p = some tail ∧ detectSep tail = some lit ∧
      p + byteLen lit < byteLen s ∧ byteTakeOpt s p = some pre ∧
      find_start np pre = some st ∧
      byteDropOpt s (p + byteLen lit) = some tail2 ∧ find_end tail2 = some e ∧
      en = p + byteLen lit + e := by
  have key := scan_elim
    (motive := fun r => r = some (some (st, en)) →
      ∃ tail lit pre tail2 e,
        p ≠ 0 ∧ byteDropOpt s p = some tail ∧ detectSep tail = some lit ∧
        p + byteLen lit < byteLen s ∧ byteTakeOpt s p = some pre ∧
        find_start np pre = some st ∧
        byteDropOpt s (p + byteLen lit) = some tail2 ∧ find_end tail2 = some e ∧
        en = p + byteLen lit + e)
    np s p
    (fun _ heq => by simp at heq)
    (fun _ _ heq => by simp at heq)
    (fun _ _ _ _ heq => by simp at heq)
    (fun _ _ _ _ _ _ heq => by simp at heq)
    (fun _ _ _ _ _ _ _ heq => by simp at heq)
    (fun _ _ _ _ _ _ _ _ _ heq => by simp at heq)
    (fun _ _ _ _ _ _ _ _ _ _ _ heq => by simp at heq)
    (fun _ _ _ _ _ _ _ _ _ _ _ _ _ heq => by simp at heq)
    (fun tail lit pre start tail2 e hp ht hd hroom hpre hfs ht2 hfe heq => by
      injection heq with heq1
      injection heq1 with heq2
      rw [Prod.mk.injEq] at heq2
      obtain ⟨ha, hb⟩ := heq2
      subst ha
      subst hb
      exact ⟨tail, lit, pre, tail2, e, hp, ht, hd, hroom, hpre, hfs, ht2, hfe, rfl⟩)
  exact key h

/-! ### `find_start` in scheme-required mode: `:` terminates the scan -/

/-- With `no_proto = false`, a `:` entry breaks the backward scan, so entries
beyond it never influence the accumulators. -/
theorem findStartLoop_colon_break :
    ∀ (l rest : List (Nat × Char)) (f0 d0 : Option Nat) (b : Nat),
      findStartLoop false (l ++ (b, ':') :: rest) f0 d0 = findStartLoop false l f0 d0 := by
  intro l
  induction l with
  | nil =>
    intro rest f0 d0 b
    show findStartLoop false ((b, ':') :: rest) f0 d0 = (f0, d0)
    simp only [findStartLoop]
    rw [if_neg (by decide), if_neg (by decide), if_neg (by decide), if_neg (by decide)]
  | cons p l' ih =>
    intro rest f0 d0 b
    obtain ⟨i, c⟩ := p
    simp only [List.cons_append, findStartLoop]
    split_ifs
    · exact ih rest (some i) d0 b
    · exact ih rest f0 (some i) b
    · exact ih rest f0 (some i) b
    · exact ih rest f0 d0 b
    · rfl

/-- The backward scan commutes with shifting all byte offsets. -/
theorem findStartLoop_shift (np : Bool) (B : Nat) :
    ∀ (l : List (Nat × Char)) (f0 d0 : Option Nat),
      findStartLoop np (l.map (fun q => (q.1 + B, q.2))) (f0.map (· + B)) (d0.map (· + B)) =
        ((findStartLoop np l f0 d0).1.map (· + B),
         (findStartLoop np l f0 d0).2.map (· + B)) := by
  intro l
  induction l with
  | nil => intro f0 d0; rfl
  | cons p l' ih =>
    obtain ⟨i, c⟩ := p
    intro f0 d0
    simp only [List.map_cons, findStartLoop]
    split_ifs
    · exact ih (some i) d0
    · exact ih f0 (some i)
    · exact ih f0 (some i)
    · exact ih f0 d0
    · rfl

theorem charIndicesFrom_shift (B : Nat) :
    ∀ (s : List Char) (base : Nat),
      charIndicesFrom (base + B) s =
        (charIndicesFrom base s).map (fun q => (q.1 + B, q.2)) := by
  intro s
  induction s with
  | nil => intro base; rfl
  | cons c rest ih =>
    intro base
    simp only [charIndicesFrom, List.map_cons]
    refine congrArg _ ?_
    have h : base + B + c.utf8Size = base + c.utf8Size + B := by omega
    rw [h, ih (base + c.utf8Size)]

/-- In scheme-required mode (`no_proto = false`) the Start Finder never looks
left of a `:`: its result on `s ++ ':' :: t` is its result on `t`, shifted by
the byte length of `s ++ ":"`. -/
theorem find_start_colon_scheme_required (s t : List Char) :
    find_start false (s ++ ':' :: t) =
      (find_start false t).map (· + (byteLen s + 1)) := by
  have hsz : (':' : Char).utf8Size = 1 := rfl
  have hsc : findStartScan false (s ++ ':' :: t) =
      ((findStartScan false t).1.map (· + (byteLen s + 1)),
       (findStartScan false t).2.map (· + (byteLen s + 1))) := by
    unfold findStartScan charIndices
    rw [charIndicesFrom_append]
    have h1 : charIndicesFrom (0 + byteLen s) (':' :: t) =
        (0 + byteLen s, ':') :: charIndicesFrom (0 + byteLen s + 1) t := by
      simp [charIndicesFrom, hsz]
    rw [h1]
    have h2 : charIndicesFrom (0 + byteLen s + 1) t =
        (charIndicesFrom 0 t).map (fun q => (q.1 + (byteLen s + 1), q.2)) := by
      have := charIndicesFrom_shift (byteLen s + 1) t 0
      rw [← this]
      refine congrArg (fun b => charIndicesFrom b t) ?_
      omega
    rw [h2]
    rw [List.reverse_append]
    simp only [List.reverse_cons, List.append_assoc, List.nil_append,
      List.singleton_append]
    rw [← List.map_reverse]
    rw [findStartLoop_colon_break]
    exact findStartLoop_shift false (byteLen s + 1) ((charIndicesFrom 0 t).reverse)
      none none
  unfold find_start
  rw [hsc]
  rcases hsct : findStartScan false t with ⟨first, digit⟩
  cases first with
  | none => cases digit <;> rfl
  | some f =>
    cases digit with
    | none => rfl
    | some d =>
      show (if 0 < f + (byteLen s + 1) ∧ f + (byteLen s + 1) - 1 = d + (byteLen s + 1)
          then (none : Option Nat) else some (f + (byteLen s + 1))) =
        (if 0 < f ∧ f - 1 = d then (none : Option Nat) else some f).map (· + (byteLen s + 1))
      by_cases hc : 0 < f ∧ f - 1 = d
      · rw [if_pos ⟨by omega, by omega⟩, if_pos hc]
        rfl
      · rw [if_neg (fun hcon => hc ⟨by omega, by omega⟩), if_neg hc]
        rfl

/-! ### Claim theorems -/

/-- C1: for every text `T` and offset `p`, if `scan(T, p)` returns a span
`[s, e)`, then `0 ≤ s < p < e ≤ len(T)`, `e` strictly exceeds the position
immediately after the consumed separator literal (at least one character
follows `://` or `.`), and `T[s..e]` contains the separator literal that
triggered the match (the literal occurs at byte offset `p`, and
`[p, p + len(lit)) ⊆ [s, e)`). -/
theorem claim_C1_span_invariant (np : Bool) (s : List Char) (p st en : Nat)
    (h : scan np s p = some (some (st, en))) :
    st < p ∧ p < en ∧ en ≤ byteLen s ∧
      ∃ lit pre rest, (lit = schemeSep ∨ lit = dotSep) ∧
        s = pre ++ (lit ++ rest) ∧ byteLen pre = p ∧ p + byteLen lit < en := by
  obtain ⟨tail, lit, pre, tail2, e, hp, ht, hd, hroom, hpre, hfs, ht2, hfe, hen⟩ :=
    scan_some_inv h
  obtain ⟨hlit, hpref⟩ := detectSep_some hd
  obtain ⟨t, htt⟩ := isPrefixOf_exists hpref
  obtain ⟨pre', hpre', hsplit, hlen⟩ := byteTakeOpt_append_of_byteDropOpt ht
  have hpp : pre' = pre := by
    rw [hpre] at hpre'
    injection hpre' with h2
    exact h2.symm
  rw [hpp] at hpre' hsplit hlen
  have hflt : st < byteLen pre := find_start_lt hfs
  rw [hlen] at hflt
  have hfeb := find_end_bounds hfe
  have hlen2 := byteDropOpt_byteLen_eq ht2
  refine ⟨hflt, by omega, by omega, lit, pre, t, hlit, ?_, hlen, by omega⟩
  rw [hsplit, htt]

/-- C1 witness: instantiation at `scan false "a://b" 1 = some [0, 5)`. -/
theorem claim_C1_witness :
    0 < 1 ∧ 1 < 5 ∧ 5 ≤ byteLen ("a://b".toList) ∧
      ∃ lit pre rest, (lit = schemeSep ∨ lit = dotSep) ∧
        "a://b".toList = pre ++ (lit ++ rest) ∧ byteLen pre = 1 ∧
        1 + byteLen lit < 5 :=
  claim_C1_span_invariant false ("a://b".toList) 1 0 5 (by decide)

/-- C5: the three bracket counters start at `0`, a close bracket at
nonpositive counter terminates the loop at once with the current (excess
bracket excluded) end, and the bracket balance law: within the returned end
boundary every prefix of the scanned suffix has nonnegative running balance
for each of the three bracket pairs. -/
theorem claim_C5_bracket_balance :
    (initEndState.round = 0 ∧ initEndState.square = 0 ∧ initEndState.curly = 0) ∧
    (∀ (st : EndState) (i : Nat) (rest : List (Nat × Char)), st.round ≤ 0 →
      findEndGo ((i, ')') :: rest) st = Sum.inr st.endPos) ∧
    (∀ (st : EndState) (i : Nat) (rest : List (Nat × Char)), st.square ≤ 0 →
      findEndGo ((i, ']') :: rest) st = Sum.inr st.endPos) ∧
    (∀ (st : EndState) (i : Nat) (rest : List (Nat × Char)), st.curly ≤ 0 →
      findEndGo ((i, '}') :: rest) st = Sum.inr st.endPos) ∧
    (∀ (s : List Char) (e n : Nat), find_end s = some e →
      byteLen (s.take n) ≤ e →
      0 ≤ listBal '(' ')' (s.take n) ∧ 0 ≤ listBal '[' ']' (s.take n) ∧
        0 ≤ listBal '{' '}' (s.take n)) := by
  refine ⟨⟨rfl, rfl, rfl⟩, ?_, ?_, ?_, ?_⟩
  · intro st i rest hle
    have hstep : findEndStep st i ')' = Sum.inr st.endPos := by
      rw [findEndStep.eq_def]
      rw [if_neg (by decide), if_neg (by decide), if_neg (by decide),
        if_neg (by decide), if_pos rfl, if_pos (by omega)]
    simp [findEndGo, hstep]
  · intro st i rest hle
    have hstep : findEndStep st i ']' = Sum.inr st.endPos := by
      rw [findEndStep.eq_def]
      rw [if_neg (by decide), if_neg (by decide), if_neg (by decide),
        if_neg (by decide), if_neg (by decide), if_neg (by decide), if_pos rfl,
        if_pos (by omega)]
    simp [findEndGo, hstep]
  · intro st i rest hle
    have hstep : findEndStep st i '}' = Sum.inr st.endPos := by
      rw [findEndStep.eq_def]
      rw [if_neg (by decide), if_neg (by decide), if_neg (by decide),
        if_neg (by decide), if_neg (by decide), if_neg (by decide),
        if_neg (by decide), if_neg (by decide), if_pos rfl, if_pos (by omega)]
    simp [findEndGo, hstep]
  · intro s e n hfe hle
    have h := resultEnd_balance s 0 initEndState e (by norm_num [initEndState])
      (by norm_num [initEndState]) (by norm_num [initEndState])
      (fun x hx => by simp [initEndState] at hx) hfe n (by omega)
    simp only [initEndState] at h
    omega

/-- C5 witness: on `"a)b"` the end finder stops at the unmatched `)` and
returns `1`; the balance of the included prefix `"a"` is nonnegative. -/
theorem claim_C5_witness :
    0 ≤ listBal '(' ')' (("a)b".toList).take 1) ∧
      0 ≤ listBal '[' ']' (("a)b".toList).take 1) ∧
      0 ≤ listBal '{' '}' (("a)b".toList).take 1) :=
  claim_C5_bracket_balance.2.2.2.2 ("a)b".toList) 1 1 (by decide) (by decide)

/-- C7: an illegal character (control, space, `"`, `<`, `>`, backtick,
`0x7F`–`0x9F`) makes the end finder break immediately, and no such character
is ever included in the returned span, not even as its final character. -/
theorem claim_C7_illegal_terminates :
    (∀ (st : EndState) (i : Nat) (c : Char), isUrlBreakChar c = true →
      findEndStep st i c = Sum.inr st.endPos) ∧
    (∀ (s : List Char) (e : Nat) (pre : List Char) (c : Char) (post : List Char),
      find_end s = some e → s = pre ++ c :: post → byteLen pre < e →
      isUrlBreakChar c = false) := by
  constructor
  · exact fun st i c h => findEndStep_break h
  · intro s e pre c post hfe hs hlt
    subst hs
    exact resultEnd_no_break_within pre c post 0 initEndState e
      (fun x hx => by simp [initEndState] at hx) hfe (by omega)

/-- C7 witness: on `"a<"` the end finder returns `1`; the character `a`
within the boundary is legal. -/
theorem claim_C7_witness : isUrlBreakChar 'a' = false :=
  claim_C7_illegal_terminates.2 ("a<".toList) 1 [] 'a' ("<".toList) (by decide)
    (by decide) (by decide)

/-- C8: a `/` is eligible to end the URL exactly when the previous character
was (`can_be_last = previous_can_be_last`), and the flag starts `true`, so a
`/` as the first scanned character is eligible (the returned end is at least
`1`). -/
theorem claim_C8_slash_rule :
    (∀ (st : EndState) (i : Nat),
      findEndStep st i '/' = Sum.inl (setLast st i '/' st.prevCanBeLast)) ∧
    initEndState.prevCanBeLast = true ∧
    (∀ s : List Char, ∃ e, find_end ('/' :: s) = some e ∧ 1 ≤ e) := by
  refine ⟨?_, rfl, ?_⟩
  · intro st i
    rw [findEndStep.eq_def]
    rw [if_neg (by decide), if_neg (by decide), if_pos rfl]
  · intro s
    show ∃ e, resultEnd (charIndicesFrom 0 ('/' :: s)) initEndState = some e ∧ 1 ≤ e
    simp only [charIndicesFrom]
    have hstep : findEndStep initEndState 0 '/' =
        Sum.inl (setLast initEndState 0 '/' true) := by
      rw [findEndStep.eq_def]
      rw [if_neg (by decide), if_neg (by decide), if_pos rfl]
      rfl
    rw [resultEnd_cons_inl hstep]
    obtain ⟨e, h1, h2⟩ := resultEnd_mono s (0 + '/'.utf8Size)
      (setLast initEndState 0 '/' true) 1 (by decide)
      (by intro y hy; injection hy with hy2; omega)
    exact ⟨e, h1, h2⟩

/-- C10: a successful span starts at an ASCII letter, and both endpoints lie
on UTF-8 character boundaries of the text. -/
theorem claim_C10_span_boundaries (np : Bool) (s : List Char) (p st en : Nat)
    (h : scan np s p = some (some (st, en))) :
    (∃ c rest, byteDropOpt s st = some (c :: rest) ∧ c.isAlpha = true) ∧
      (byteDropOpt s en).isSome = true := by
  obtain ⟨tail, lit, pre, tail2, e, hp, ht, hd, hroom, hpre, hfs, ht2, hfe, hen⟩ :=
    scan_some_inv h
  obtain ⟨c, rest, hdropPre, halpha⟩ := find_start_mem hfs
  obtain ⟨pre', hpre', hsplit, hlen⟩ := byteTakeOpt_append_of_byteDropOpt ht
  have hpp : pre' = pre := by
    rw [hpre] at hpre'
    injection hpre' with h2
    exact h2.symm
  rw [hpp] at hpre' hsplit hlen
  have hdropS : byteDropOpt s st = some (c :: (rest ++ tail)) := by
    rw [hsplit]
    exact byteDropOpt_append_left hdropPre tail
  rcases resultEnd_mem (charIndices tail2) initEndState e hfe with hinit | ⟨i, c2, hm, hei⟩
  · exact absurd hinit (by simp [initEndState])
  · obtain ⟨_, rest2, hdt⟩ := mem_charIndicesFrom hm
    have hdt' : byteDropOpt tail2 i = some (c2 :: rest2) := by simpa using hdt
    have hstep2 : byteDropOpt (c2 :: rest2) c2.utf8Size = some rest2 := by
      have h1 := byteDropOpt_append [c2] rest2
      have h2 : byteLen [c2] = c2.utf8Size := by simp [byteLen]
      rw [h2] at h1
      simpa using h1
    have hb1 : byteDropOpt tail2 (i + c2.utf8Size) = some rest2 :=
      byteDropOpt_add hdt' hstep2
    have hbS : byteDropOpt s en = some rest2 := by
      have := byteDropOpt_add ht2 hb1
      rw [hen, hei]
      convert this using 2
      try omega
    exact ⟨⟨c, rest ++ tail, hdropS, halpha⟩, by simp [hbS]⟩

/-- C10 witness: instantiation at `scan false "a://b" 1 = some [0, 5)`. -/
theorem claim_C10_witness :
    (∃ c rest, byteDropOpt ("a://b".toList) 0 = some (c :: rest) ∧
      c.isAlpha = true) ∧
      (byteDropOpt ("a://b".toList) 5).isSome = true :=
  claim_C10_span_boundaries false ("a://b".toList) 1 0 5 (by decide)

/-- C3: if the backward scan records both a leftmost-letter offset `first`
and a special offset `special` with `first` one byte right of `special`, the
candidate is rejected; in particular `scan` finds no match in `"1abc://foo"`
(in either mode), while a non-adjacent separator such as a preceding `.` does
not invalidate the candidate (`".abc://foo"` matches from offset `1`). -/
theorem claim_C3_digit_adjacent_reject :
    (∀ (np : Bool) (s : List Char) (f d : Nat),
      findStartScan np s = (some f, some d) → f = d + 1 →
      find_start np s = none) ∧
    (∀ np : Bool, scan np ("1abc://foo".toList) 4 = some none) ∧
    (∀ np : Bool, scan np (".abc://foo".toList) 4 = some (some (1, 10))) := by
  refine ⟨?_, by decide, by decide⟩
  intro np s f d hsc hadj
  exact find_start_reject hsc hadj

/-- C3 witness: on `"1abc"` the scan records `first = 1`, `special = 0`,
adjacent, so `find_start` rejects. -/
theorem claim_C3_witness :
    findStartScan false ("1abc".toList) = (some 1, some 0) ∧
      find_start false ("1abc".toList) = none :=
  ⟨by decide,
    claim_C3_digit_adjacent_reject.1 false ("1abc".toList) 1 0 (by decide) rfl⟩

/-- C4 counterexample: the claim's quote-parity law fails when an earlier
quote leaves the parity open.  `"'a''"` ends in a run of two single quotes
(even), yet the end finder returns `3`, not the full byte length `4`: the
final quote of the even trailing run is excluded. -/
theorem claim_C4_counterexample :
    ("'a''".toList = ['\'', 'a'] ++ List.replicate 2 '\'') ∧
      find_end ("'a''".toList) = some 3 ∧
      find_end ("'a''".toList) ≠ some (byteLen ("'a''".toList)) := by
  refine ⟨by decide, by decide, by decide⟩

/-- C4 (amended): each `'` toggles the parity flag and is eligible to end the
URL only when the count becomes even; consequently, when the end finder
reaches a trailing run of `k ≥ 1` single quotes without breaking and with
even parity at the run's start, an even-length run is wholly included
(`end` = full byte length), an odd run never includes its final quote: for
`k ≥ 2` exactly the final quote is excluded, and for `k = 1` the end stays at
the prefix's last eligible boundary. -/
theorem claim_C4_quote_parity_amended (t : List Char) (k : Nat) (st : EndState)
    (hrun : findEndGo (charIndices t) initEndState = Sum.inl st)
    (hsq : st.singleQuote = false) (hk : 1 ≤ k) :
    find_end (t ++ List.replicate k '\'') =
      if k % 2 = 0 then some (byteLen t + k)
      else if k = 1 then st.endPos
      else some (byteLen t + k - 1) := by
  have hcomp : find_end (t ++ List.replicate k '\'') =
      resultEnd (charIndicesFrom (0 + byteLen t) (List.replicate k '\'')) st := by
    unfold charIndices at hrun
    unfold find_end charIndices
    rw [charIndicesFrom_append]
    unfold resultEnd
    rw [findEndGo_append]
    rw [hrun]
  rw [hcomp, resultEnd_quoteRun k (0 + byteLen t) st hsq]
  rw [if_neg (by omega)]
  have h0 : 0 + byteLen t = byteLen t := by omega
  rw [h0]

/-- C4 witness: `"a''"` (balanced parity before the trailing run of two
quotes) is wholly included: the end finder returns the full length `3`. -/
theorem claim_C4_witness : find_end ("a''".toList) = some 3 := by
  have h := claim_C4_quote_parity_amended ("a".toList) 2
    (setLast initEndState 0 'a' true) (by decide) rfl (by decide)
  have heq : ("a".toList ++ List.replicate 2 '\'') = "a''".toList := by decide
  rw [heq] at h
  rw [h]
  decide

/-- C2 counterexample: with `no_proto = false` (scheme required), at offset
`7` of `"example.org/"` the text starts with `.` and not `://`, yet `scan`
returns the span `[0, 12)` rather than no match. -/
theorem claim_C2_counterexample :
    byteDropOpt ("example.org/".toList) 7 = some (".org/".toList) ∧
      schemeSep.isPrefixOf (".org/".toList) = false ∧
      dotSep.isPrefixOf (".org/".toList) = true ∧
      scan false ("example.org/".toList) 7 = some (some (0, 12)) := by
  refine ⟨by decide, by decide, by decide, by decide⟩

/-- C2 (amended): `scan` itself does not restrict `DotSeparator` triggers in
scheme-required mode — `scan(false, "example.org/", 7)` yields `[0, 12)`; the
only-`SchemeSeparator` restriction belongs to the external separator locator.
There is no `:`-flips-mode rule in the Start Finder: with scheme required, a
`:` terminates the backward scan, so the result on `s ++ ":" ++ t` is the
result on `t` shifted past `s ++ ":"`. -/
theorem claim_C2_scheme_required_amended :
    scan false ("example.org/".toList) 7 = some (some (0, 12)) ∧
      (∀ s t : List Char, find_start false (s ++ ':' :: t) =
        (find_start false t).map (· + (byteLen s + 1))) :=
  ⟨by decide, find_start_colon_scheme_required⟩

/-- C6: `scan` has exactly two outcomes, span or no-match: offset `0`, a text
not starting with either separator literal, a separator with nothing after
it, and a failing Start or End Finder each give no-match; on any in-bounds
character boundary the result is a span or no-match, never a panic. -/
theorem claim_C6_no_fatal_outcomes :
    (∀ (np : Bool) (s : List Char), scan np s 0 = some none) ∧
    (∀ (np : Bool) (s : List Char) (p : Nat) (tail : List Char),
      byteDropOpt s p = some tail → schemeSep.isPrefixOf tail = false →
      dotSep.isPrefixOf tail = false → scan np s p = some none) ∧
    (∀ (np : Bool) (s : List Char) (p : Nat) (tail lit : List Char),
      byteDropOpt s p = some tail → detectSep tail = some lit →
      byteLen s ≤ p + byteLen lit → scan np s p = some none) ∧
    (∀ (np : Bool) (s : List Char) (p : Nat) (tail lit pre : List Char),
      byteDropOpt s p = some tail → detectSep tail = some lit →
      byteTakeOpt s p = some pre → find_start np pre = none →
      scan np s p = some none) ∧
    (∀ (np : Bool) (s : List Char) (p : Nat) (tail lit pre tail2 : List Char)
      (st : Nat),
      byteDropOpt s p = some tail → detectSep tail = some lit →
      byteTakeOpt s p = some pre → find_start np pre = some st →
      byteDropOpt s (p + byteLen lit) = some tail2 → find_end tail2 = none →
      scan np s p = some none) ∧
    (∀ (np : Bool) (s : List Char) (p : Nat),
      (byteDropOpt s p).isSome = true →
      scan np s p = some none ∨ ∃ st en, scan np s p = some (some (st, en))) := by
  refine ⟨?_, ?_, ?_, ?_, ?_, ?_⟩
  · intro np s
    unfold scan
    rw [if_pos rfl]
  · intro np s p tail ht h1 h2
    by_cases hp : p = 0
    · subst hp
      unfold scan
      rw [if_pos rfl]
    · unfold scan
      rw [if_neg hp]
      simp only [ht, detectSep_eq_none h1 h2]
  · intro np s p tail lit ht hd hle
    by_cases hp : p = 0
    · subst hp
      unfold scan
      rw [if_pos rfl]
    · unfold scan
      rw [if_neg hp]
      simp only [ht, hd]
      rw [if_neg (by omega)]
  · intro np s p tail lit pre ht hd hpre hfs
    by_cases hp : p = 0
    · subst hp
      unfold scan
      rw [if_pos rfl]
    · unfold scan
      rw [if_neg hp]
      simp only [ht, hd]
      by_cases hroom : p + byteLen lit < byteLen s
      · rw [if_pos hroom]
        simp only [hpre, hfs]
      · rw [if_neg hroom]
  · intro np s p tail lit pre tail2 st ht hd hpre hfs ht2 hfe
    by_cases hp : p = 0
    · subst hp
      unfold scan
      rw [if_pos rfl]
    · unfold scan
      rw [if_neg hp]
      simp only [ht, hd]
      by_cases hroom : p + byteLen lit < byteLen s
      · rw [if_pos hroom]
        simp only [hpre, hfs, ht2, hfe]
      · rw [if_neg hroom]
  · intro np s p hb
    have key := scan_elim
      (motive := fun r => r = some none ∨ ∃ st en, r = some (some (st, en)))
      np s p
      (fun _ => Or.inl rfl)
      (fun _ hdrop => by rw [hdrop] at hb; cases hb)
      (fun _ _ _ _ => Or.inl rfl)
      (fun _ _ _ _ _ _ => Or.inl rfl)
      (fun tail lit hp ht hd hroom hpre => by
        obtain ⟨pre, hpre2, _, _⟩ := byteTakeOpt_append_of_byteDropOpt ht
        rw [hpre2] at hpre
        cases hpre)
      (fun _ _ _ _ _ _ _ _ _ => Or.inl rfl)
      (fun tail lit pre start hp ht hd hroom hpre hfs ht2 => by
        obtain ⟨hl, hpref⟩ := detectSep_some hd
        obtain ⟨rest, hrest⟩ := isPrefixOf_exists hpref
        have hx := byteDropOpt_after_lit ht hrest
        rw [hx] at ht2
        cases ht2)
      (fun _ _ _ _ _ _ _ _ _ _ _ _ _ => Or.inl rfl)
      (fun tail lit pre start tail2 e _ _ _ _ _ _ _ _ =>
        Or.inr ⟨start, p + byteLen lit + e, rfl⟩)
    exact key

/-- C6 witness: at offset `1` of `"ab"` the text starts with neither `://`
nor `.`, so `scan` is no-match. -/
theorem claim_C6_witness : scan false ("ab".toList) 1 = some none :=
  claim_C6_no_fatal_outcomes.2.1 false ("ab".toList) 1 ("b".toList) (by decide)
    (by decide) (by decide)

/-- C9: `scan` evaluates without panicking exactly on the UTF-8 character
boundaries: on a boundary (in bounds by construction) the result is `some`,
and on an offset interior to a multi-byte character the byte slice — and
hence `scan` — is partial (`none`, the model of a Rust panic), except at the
guarded offset `0`. -/
theorem claim_C9_boundary_totality (np : Bool) (s : List Char) (p : Nat) :
    (∀ tail, byteDropOpt s p = some tail →
      (scan np s p).isSome = true ∧ p ≤ byteLen s) ∧
    (byteDropOpt s p = none → scan np s p = none ∧ p ≠ 0) := by
  constructor
  · intro tail ht
    have hlen := byteDropOpt_byteLen_eq ht
    constructor
    · have key := scan_elim (motive := fun r => r.isSome = true) np s p
        (fun _ => rfl)
        (fun _ hdrop => by rw [hdrop] at ht; cases ht)
        (fun _ _ _ _ => rfl)
        (fun _ _ _ _ _ _ => rfl)
        (fun tail' lit hp ht' hd hroom hpre => by
          obtain ⟨pre, hpre2, _, _⟩ := byteTakeOpt_append_of_byteDropOpt ht'
          rw [hpre2] at hpre
          cases hpre)
        (fun _ _ _ _ _ _ _ _ _ => rfl)
        (fun tail' lit pre start hp ht' hd hroom hpre hfs ht2 => by
          obtain ⟨hl, hpref⟩ := detectSep_some hd
          obtain ⟨rest, hrest⟩ := isPrefixOf_exists hpref
          have hx := byteDropOpt_after_lit ht' hrest
          rw [hx] at ht2
          cases ht2)
        (fun _ _ _ _ _ _ _ _ _ _ _ _ _ => rfl)
        (fun _ _ _ _ _ _ _ _ _ _ _ _ _ _ => rfl)
      exact key
    · omega
  · intro hnone
    have hp : p ≠ 0 := by
      intro hp0
      rw [hp0, byteDropOpt_zero] at hnone
      cases hnone
    refine ⟨?_, hp⟩
    unfold scan
    rw [if_neg hp]
    simp only [hnone]

/-- C9 witness: offset `1` of `"ab"` is a character boundary, so `scan`
returns a value (no panic). -/
theorem claim_C9_witness :
    (scan false ("ab".toList) 1).isSome = true ∧ 1 ≤ byteLen ("ab".toList) :=
  (claim_C9_boundary_totality false ("ab".toList) 1).1 ("b".toList) (by decide)
